import Mathlib

/-!
Verification development for the ebml_macros schema-language parser
(src/parsers/mod.rs).  The parser combinators of the external nom 3 crate
are embedded shallowly: input is a list of bytes (as `Nat`), every parser
returns either a value with the remaining input, a local non-match, or an
incomplete-input signal.  Error-kind payloads and `Needed` sizes are
abstracted away; only the three-way outcome is kept.  Rust `&str` values
are represented as their byte lists.
-/

set_option maxRecDepth 10000

/-- Outcome of a parse attempt: success with remainder, local non-match,
or incomplete input (nom `IResult` with payloads abstracted). -/
inductive PResult (α : Type) where
  | done (rest : List Nat) (val : α)
  | error
  | incomplete
deriving DecidableEq

/-- A parser over a byte buffer. -/
abbrev Parser (α : Type) : Type := List Nat → PResult α

/-- Sequencing of parsers (nom `do_parse!` / `tuple!` chaining). -/
def pbind (p : Parser α) (f : α → Parser β) : Parser β := fun i =>
  match p i with
  | .done r v => f v r
  | .error => .error
  | .incomplete => .incomplete

/-- nom `map!`. -/
def pmap (p : Parser α) (f : α → β) : Parser β := fun i =>
  match p i with
  | .done r v => .done r (f v)
  | .error => .error
  | .incomplete => .incomplete

/-- nom `value!`: succeed without consuming. -/
def pvalue (v : α) : Parser α := fun i => .done i v

/-- nom `complete!`: turn an incomplete signal into a local non-match. -/
def pcomplete (p : Parser α) : Parser α := fun i =>
  match p i with
  | .incomplete => .error
  | r => r

/-- nom `alt!`: ordered choice, incomplete propagates. -/
def palt (p q : Parser α) : Parser α := fun i =>
  match p i with
  | .error => q i
  | r => r

/-- One step of nom `alt_complete!`: the left branch is wrapped in
`complete!`, so its incomplete signal falls through to the next branch. -/
def paltc (p q : Parser α) : Parser α := fun i =>
  match pcomplete p i with
  | .error => q i
  | r => r

/-- nom `opt!`: errors recover to `none`, incomplete propagates. -/
def popt (p : Parser α) : Parser (Option α) := fun i =>
  match p i with
  | .done r v => .done r (some v)
  | .error => .done i none
  | .incomplete => .incomplete

/-- nom `tag!`: match a fixed byte sequence; a short matching input
is incomplete. -/
def ptag (t : List Nat) : Parser (List Nat) := fun i =>
  if t.isPrefixOf i then .done (i.drop t.length) t
  else if i.isPrefixOf t then .incomplete
  else .error

/-- nom `take!`: exactly `n` bytes or incomplete. -/
def ptake (n : Nat) : Parser (List Nat) := fun i =>
  if i.length < n then .incomplete else .done (i.drop n) (i.take n)

/-- nom `take_while!`: longest (possibly empty) run satisfying `p`;
always succeeds in nom 3. -/
def ptakeWhile (p : Nat → Bool) : Parser (List Nat) := fun i =>
  .done (i.dropWhile p) (i.takeWhile p)

/-- Index of the first occurrence of `t` as a sublist. -/
def findSub (t : List Nat) : List Nat → Option Nat
  | [] => if t = [] then some 0 else none
  | b :: r => if t.isPrefixOf (b :: r) then some 0 else (findSub t r).map (· + 1)

/-- nom `take_until!`: bytes before the first occurrence of `t`
(not consumed); incomplete when `t` does not occur. -/
def ptakeUntil (t : List Nat) : Parser (List Nat) := fun i =>
  match findSub t i with
  | some k => .done (i.drop k) (i.take k)
  | none => .incomplete

/-- nom `take_until_and_consume!`. -/
def ptakeUntilAndConsume (t : List Nat) : Parser (List Nat) := fun i =>
  match findSub t i with
  | some k => .done (i.drop (k + t.length)) (i.take k)
  | none => .incomplete

/-- nom `recognize!`: the consumed slice of a successful inner parse. -/
def precognize (p : Parser α) : Parser (List Nat) := fun i =>
  match p i with
  | .done r _ => .done r (i.take (i.length - r.length))
  | .error => .error
  | .incomplete => .incomplete

/-- nom `map_opt!` (also models `map_res!`, with `Result` as `Option`). -/
def pmapOpt (p : Parser α) (f : α → Option β) : Parser β := fun i =>
  match p i with
  | .done r v =>
    match f v with
    | some w => .done r w
    | none => .error
  | .error => .error
  | .incomplete => .incomplete

/-- nom `preceded!`. -/
def precededBy (p : Parser α) (q : Parser β) : Parser β :=
  pbind p (fun _ => q)

/-- nom `terminated!`. -/
def terminatedBy (p : Parser α) (q : Parser β) : Parser α :=
  pbind p (fun v => pmap q (fun _ => v))

/-- nom `delimited!`. -/
def delimitedBy (a : Parser α) (b : Parser β) (c : Parser γ) : Parser β :=
  precededBy a (terminatedBy b c)

/-! ## Byte classes -/

/-- Whitespace recognized by nom's `sp` and by `from_hex`. -/
def wsb (b : Nat) : Bool := b = 32 || b = 9 || b = 13 || b = 10

/-- nom `is_digit`. -/
def isDigitB (b : Nat) : Bool := 48 ≤ b && b ≤ 57

/-- nom `is_hex_digit`. -/
def isHexB (b : Nat) : Bool :=
  (48 ≤ b && b ≤ 57) || (65 ≤ b && b ≤ 70) || (97 ≤ b && b ≤ 102)

/-- ASCII alphabetic. -/
def asciiAlpha (b : Nat) : Bool := (65 ≤ b && b ≤ 90) || (97 ≤ b && b ≤ 122)

/-- ASCII alphanumeric (nom `AsChar::is_alphanum` for `u8`). -/
def asciiAlphanum (b : Nat) : Bool := asciiAlpha b || isDigitB b

/-- Unicode-alphabetic code points in the Latin-1 range: the source tests
the first name byte with `(byte as char).is_alphabetic()`, which for a
byte cast to `char` covers these values beyond ASCII. -/
def latin1Alpha (b : Nat) : Bool :=
  b = 170 || b = 181 || b = 186 ||
  (192 ≤ b && b ≤ 214) || (216 ≤ b && b ≤ 246) || (248 ≤ b && b ≤ 255)

/-- Admissible first byte of a name: alpha or underscore. -/
def nameStartByte (b : Nat) : Bool := asciiAlpha b || latin1Alpha b || b = 95

/-- Admissible continuation byte of a name: ASCII alphanumeric or underscore. -/
def nameContByte (b : Nat) : Bool := asciiAlphanum b || b = 95

/-- Byte admitted by the `int_v` scanner: digit or minus. -/
def intVByte (b : Nat) : Bool := isDigitB b || b = 45

/-- Byte admitted by the `float_v` scanner: digit, minus, plus, dot or `e`. -/
def floatVByte (b : Nat) : Bool :=
  isDigitB b || b = 45 || b = 43 || b = 46 || b = 101

/-- Hex digit or whitespace: the alphabet `from_hex` does not reject. -/
def hexOrWsB (b : Nat) : Bool := isHexB b || wsb b

/-- Decimal value of a digit byte. -/
def digitVal (b : Nat) : Nat := b - 48

/-- Value of a hex-digit byte. -/
def hexVal (b : Nat) : Nat :=
  if 65 ≤ b && b ≤ 70 then b - 55
  else if 97 ≤ b && b ≤ 102 then b - 87
  else b - 48

/-- Bytes of an ASCII string literal (all concrete inputs are ASCII). -/
def asciiBytes (s : String) : List Nat := s.data.map (fun c => c.toNat)

/-! ## Numeric string conversion (Rust `FromStr`) -/

/-- Value of a decimal digit run. -/
def natOfDigits (l : List Nat) : Nat := l.foldl (fun a b => a * 10 + digitVal b) 0

/-- Modelled from the spec: Rust `u64::from_str` — optional plus sign, one
or more decimal digits, result must fit the 64-bit width ("fails on empty
run or width overflow"). -/
def fromStrU64 (s : List Nat) : Option Nat :=
  let t := if s.head? = some 43 then s.tail else s
  if t ≠ [] ∧ t.all isDigitB = true ∧ natOfDigits t < 2 ^ 64 then
    some (natOfDigits t)
  else none

/-- Modelled from the spec: Rust `u32::from_str`. -/
def fromStrU32 (s : List Nat) : Option Nat :=
  let t := if s.head? = some 43 then s.tail else s
  if t ≠ [] ∧ t.all isDigitB = true ∧ natOfDigits t < 2 ^ 32 then
    some (natOfDigits t)
  else none

/-- Modelled from the spec: Rust `i64::from_str` — optional sign then
decimal digits, width-checked. -/
def fromStrI64 (s : List Nat) : Option Int :=
  if s.head? = some 45 then
    if s.tail ≠ [] ∧ s.tail.all isDigitB = true ∧ natOfDigits s.tail ≤ 2 ^ 63 then
      some (-(natOfDigits s.tail : Int))
    else none
  else
    let t := if s.head? = some 43 then s.tail else s
    if t ≠ [] ∧ t.all isDigitB = true ∧ natOfDigits t < 2 ^ 63 then
      some (natOfDigits t)
    else none

/-- Modelled from the spec: Rust `i32::from_str`. -/
def fromStrI32 (s : List Nat) : Option Int :=
  if s.head? = some 45 then
    if s.tail ≠ [] ∧ s.tail.all isDigitB = true ∧ natOfDigits s.tail ≤ 2 ^ 31 then
      some (-(natOfDigits s.tail : Int))
    else none
  else
    let t := if s.head? = some 43 then s.tail else s
    if t ≠ [] ∧ t.all isDigitB = true ∧ natOfDigits t < 2 ^ 31 then
      some (natOfDigits t)
    else none

/-! ## UTF-8 validation (Rust `str::from_utf8` / `String::from_utf8`) -/

/-- UTF-8 continuation byte. -/
def utf8Cont (b : Nat) : Bool := 128 ≤ b && b ≤ 191

/-- Admissible second byte of a three-byte sequence led by `b`. -/
def utf8Snd3 (b c : Nat) : Bool :=
  if b = 224 then 160 ≤ c && c ≤ 191
  else if b = 237 then 128 ≤ c && c ≤ 159
  else utf8Cont c

/-- Admissible second byte of a four-byte sequence led by `b`. -/
def utf8Snd4 (b c : Nat) : Bool :=
  if b = 240 then 144 ≤ c && c ≤ 191
  else if b = 244 then 128 ≤ c && c ≤ 143
  else utf8Cont c

/-- Modelled from the spec: Rust UTF-8 validity of a byte sequence
(string defaults "additionally require valid UTF-8 text"). -/
def validUtf8 : List Nat → Bool
  | [] => true
  | b :: r =>
    if b < 128 then validUtf8 r
    else if b < 194 then false
    else if b < 224 then
      match r with
      | c :: r2 => utf8Cont c && validUtf8 r2
      | [] => false
    else if b < 240 then
      match r with
      | c :: c2 :: r2 => utf8Snd3 b c && utf8Cont c2 && validUtf8 r2
      | _ => false
    else if b < 245 then
      match r with
      | c :: c2 :: c3 :: r2 => utf8Snd4 b c && utf8Cont c2 && utf8Cont c3 && validUtf8 r2
      | _ => false
    else false

/-- `str::from_utf8` / `String::from_utf8` as a fallible identity on bytes. -/
def utf8Check (bs : List Nat) : Option (List Nat) :=
  if validUtf8 bs then some bs else none

/-! ## Float literals -/

/-- Modelled from the spec: acceptance grammar of the standard
decimal/exponent conversion (`f64::from_str`): optional sign, a mantissa
with at least one digit and an optional dot, and an optional exponent
with at least one digit. -/
def floatSyntax (s : List Nat) : Bool :=
  let t := match s with | 43 :: r => r | 45 :: r => r | r => r
  let d1 := t.takeWhile isDigitB
  let t1 := t.dropWhile isDigitB
  let d2len : Nat :=
    match t1 with
    | 46 :: r => (r.takeWhile isDigitB).length
    | _ => 0
  let t2 : List Nat :=
    match t1 with
    | 46 :: r => r.dropWhile isDigitB
    | r => r
  if d1.length + d2len = 0 then false
  else
    match t2 with
    | [] => true
    | 101 :: r =>
      let r1 := match r with | 43 :: rr => rr | 45 :: rr => rr | rr => rr
      !r1.isEmpty && r1.all isDigitB && (r1.dropWhile isDigitB).isEmpty
    | 69 :: r =>
      let r1 := match r with | 43 :: rr => rr | 45 :: rr => rr | rr => rr
      !r1.isEmpty && r1.all isDigitB && (r1.dropWhile isDigitB).isEmpty
    | _ => false

/-- Modelled from the spec: `f64::from_str`, with the floating-point value
abstracted to the accepted literal text (no claim concerns float values). -/
def floatFromStr (s : List Nat) : Option (List Nat) :=
  if floatSyntax s then some s else none

/-! ## `from_hex` (src/parsers/mod.rs lines 14-45) -/

/-- The loop body of `from_hex`: `buf` is shifted left four bits (as a
wrapping `u8`), a hex digit is or-ed into it, whitespace undoes the shift,
anything else aborts; every second digit pushes the byte. -/
def fromHexLoop : List Nat → Nat → Nat → List Nat → Option (List Nat)
  | [], modulus, _, acc => if modulus = 0 then some acc.reverse else none
  | b :: rest, modulus, buf, acc =>
    let buf1 := (buf * 16) % 256
    if 65 ≤ b && b ≤ 70 then
      let buf2 := buf1 ||| (b - 65 + 10)
      if modulus + 1 = 2 then fromHexLoop rest 0 buf2 (buf2 :: acc)
      else fromHexLoop rest (modulus + 1) buf2 acc
    else if 97 ≤ b && b ≤ 102 then
      let buf2 := buf1 ||| (b - 97 + 10)
      if modulus + 1 = 2 then fromHexLoop rest 0 buf2 (buf2 :: acc)
      else fromHexLoop rest (modulus + 1) buf2 acc
    else if 48 ≤ b && b ≤ 57 then
      let buf2 := buf1 ||| (b - 48)
      if modulus + 1 = 2 then fromHexLoop rest 0 buf2 (buf2 :: acc)
      else fromHexLoop rest (modulus + 1) buf2 acc
    else if b = 32 || b = 13 || b = 10 || b = 9 then
      fromHexLoop rest modulus (buf1 / 16) acc
    else none

/-- `from_hex`. -/
def fromHex (s : List Nat) : Option (List Nat) := fromHexLoop s 0 0 []

/-! ## Lexical layer -/

/-- `lcomment`: `//` up to and including the newline, text must be UTF-8. -/
def lcomment : Parser (List Nat) :=
  pmapOpt (precededBy (ptag [47, 47]) (ptakeUntilAndConsume [10])) utf8Check

/-- `bcomment`: `/*` up to and including `*/`, text must be UTF-8. -/
def bcomment : Parser (List Nat) :=
  pmapOpt (precededBy (ptag [47, 42]) (ptakeUntilAndConsume [42, 47])) utf8Check

/-- `comment`: line or block comment (plain `alt!`). -/
def comment : Parser (List Nat) := palt lcomment bcomment

/-- `ws!(comment)`: whitespace, a comment, trailing whitespace. -/
def wsComment : Parser (List Nat) := fun i =>
  match comment (i.dropWhile wsb) with
  | .done i2 v => .done (i2.dropWhile wsb) v
  | .error => .error
  | .incomplete => .incomplete

/-- The `fold_many0!(ws!(comment), ...)` loop of `separator`; fuel is the
input length plus one, which the loop (consuming at least one byte per
iteration) can never exhaust, so the fuel-zero arm is unreachable. -/
def foldCommentsF : Nat → List Nat → PResult Unit
  | 0, _ => .incomplete
  | fuel + 1, i =>
    if i = [] then .done i ()
    else
      match wsComment i with
      | .error => .done i ()
      | .incomplete => .incomplete
      | .done i2 _ =>
        if i2.length = i.length then .error
        else foldCommentsF fuel i2

/-- `separator`: greedy whitespace and comments
(`ws!(fold_many0!(ws!(comment), (), ...))`). -/
def separator : Parser Unit := fun i =>
  let i1 := i.dropWhile wsb
  match foldCommentsF (i1.length + 1) i1 with
  | .done i2 _ => .done (i2.dropWhile wsb) ()
  | .error => .error
  | .incomplete => .incomplete

/-- The hand-written `name` parser: empty input is incomplete, a first byte
that is neither alphabetic nor underscore is a non-match, otherwise the
longest run of alphanumeric/underscore bytes is taken.  The `&str` value is
kept as raw bytes (the source's `from_utf8(..).unwrap()` is the identity on
the byte content). -/
def name : Parser (List Nat) := fun i =>
  match i with
  | [] => .incomplete
  | b :: rest =>
    if nameStartByte b then
      .done (rest.dropWhile nameContByte) (b :: rest.takeWhile nameContByte)
    else .error

/-! ## Date-time model (external collaborator `chrono`) -/

/-- Modelled from the spec: a `chrono::NaiveDateTime` as its calendar and
clock fields plus sub-second nanoseconds. -/
structure NDT where
  year : Int
  month : Nat
  day : Nat
  hour : Nat
  minute : Nat
  second : Nat
  nano : Nat
deriving DecidableEq

/-- Proleptic-Gregorian leap year. -/
def isLeap (y : Int) : Bool := (y % 4 = 0 && y % 100 ≠ 0) || y % 400 = 0

/-- Length of a month. -/
def daysInMonth (y : Int) (m : Nat) : Nat :=
  if m = 2 then (if isLeap y then 29 else 28)
  else if m = 4 || m = 6 || m = 9 || m = 11 then 30
  else 31

/-- Modelled from the spec: the validity check of
`NaiveDate::from_ymd_opt` (calendar-range validation; the extreme year
bounds of chrono are unreachable with four-character years). -/
def validYmd (y : Int) (m d : Nat) : Bool :=
  1 ≤ m && m ≤ 12 && 1 ≤ d && d ≤ daysInMonth y m

/-- Modelled from the spec: the validity check of `NaiveTime::from_hms_opt`. -/
def validHms (h mi s : Nat) : Bool := h < 24 && mi < 60 && s < 60

/-- Modelled from the spec: the validity check of
`NaiveTime::from_hms_nano_opt` (nanoseconds up to the leap-second bound). -/
def validHmsNano (h mi s n : Nat) : Bool := validHms h mi s && n < 2000000000

/-- Days from civil date (standard Gregorian day-count algorithm; days
since 1970-01-01).  Modelled from the spec: chrono's internal calendar
arithmetic. -/
def daysFromCivil (y : Int) (m d : Nat) : Int :=
  let y1 : Int := if m ≤ 2 then y - 1 else y
  let era : Int := (if 0 ≤ y1 then y1 else y1 - 399).fdiv 400
  let yoe : Int := y1 - era * 400
  let mp : Int := if 2 < m then (m : Int) - 3 else (m : Int) + 9
  let doy : Int := (153 * mp + 2).fdiv 5 + (d : Int) - 1
  let doe : Int := yoe * 365 + yoe.fdiv 4 - yoe.fdiv 100 + doy
  era * 146097 + doe - 719468

/-- Civil date from a day count (inverse of `daysFromCivil`). -/
def civilFromDays (z0 : Int) : Int × Nat × Nat :=
  let z : Int := z0 + 719468
  let era : Int := (if 0 ≤ z then z else z - 146096).fdiv 146097
  let doe : Int := z - era * 146097
  let yoe : Int := (doe - doe.fdiv 1460 + doe.fdiv 36524 - doe.fdiv 146096).fdiv 365
  let y : Int := yoe + era * 400
  let doy : Int := doe - (365 * yoe + yoe.fdiv 4 - yoe.fdiv 100)
  let mp : Int := (5 * doy + 2).fdiv 153
  let d : Int := doy - (153 * mp + 2).fdiv 5 + 1
  let m : Int := if mp < 10 then mp + 3 else mp - 9
  (if m ≤ 2 then y + 1 else y, m.toNat, d.toNat)

/-- Nanoseconds per day. -/
def NANOS_PER_DAY : Int := 86400 * 1000000000

/-- Modelled from the spec: the reference instant 2001-01-01T00:00:00 plus
a signed nanosecond offset (`epoch + Duration::nanoseconds(val)`,
exact timeline arithmetic; every `i64` offset stays in chrono's range). -/
def epochPlusNanos (v : Int) : NDT :=
  let total : Int := daysFromCivil 2001 1 1 * NANOS_PER_DAY + v
  let day : Int := total.fdiv NANOS_PER_DAY
  let tod : Nat := (total.emod NANOS_PER_DAY).toNat
  let ymd := civilFromDays day
  { year := ymd.1, month := ymd.2.1, day := ymd.2.2,
    hour := tod / 3600000000000,
    minute := tod / 60000000000 % 60,
    second := tod / 1000000000 % 60,
    nano := tod % 1000000000 }

/-! ## Primitive literal parsers -/

/-- `int_v`: longest run of digits and minus signs, converted as `i64`
(the inner `from_utf8` on this ASCII-only run always succeeds and is
omitted). -/
def int_v : Parser Int := pmapOpt (ptakeWhile intVByte) fromStrI64

/-- `float_v`: longest run over the float alphabet, standard conversion. -/
def float_v : Parser (List Nat) := pmapOpt (ptakeWhile floatVByte) floatFromStr

/-- The inline unsigned-integer sub-parser
`map_res!(map_res!(take_while!(is_digit), from_utf8), from_str)` repeated
throughout the source with a `u64` target. -/
def uint_v : Parser Nat := pmapOpt (ptakeWhile isDigitB) fromStrU64

/-- Fractional-second digits converted to nanoseconds: the source parses
`"." ++ digits` with `f64::from_str` and multiplies by `1e9`, truncating
to `u32`; modelled exactly on the decimal value (the conversion is exact
for the fraction lengths any claim exercises). -/
def fracNanos (ds : List Nat) : Nat :=
  if ds.length ≤ 9 then natOfDigits ds * 10 ^ (9 - ds.length)
  else natOfDigits (ds.take 9)

/-- The `map_res` closure of the fractional part: the recognized slice is
the dot followed by the digit run; `f64::from_str` requires at least one
digit. -/
def fracOpt (slice : List Nat) : Option Nat :=
  match slice with
  | 46 :: ds => if ds ≠ [] ∧ ds.all isDigitB = true then some (fracNanos ds) else none
  | _ => none

/-- The compact absolute alternative of `date_v`:
`YYYYMMDDThh:mm:ss[.fraction]` with clock validation first, then calendar
validation, exactly as the source orders its `map_opt!` steps. -/
def dateCompact : Parser NDT :=
  pbind (pmapOpt (ptake 4) fromStrI32) (fun year =>
  pbind (pmapOpt (ptake 2) fromStrU32) (fun month =>
  pbind (pmapOpt (ptake 2) fromStrU32) (fun day =>
  pbind (ptag [84]) (fun _ =>
  pbind (pmapOpt (ptake 2) fromStrU32) (fun hour =>
  pbind (ptag [58]) (fun _ =>
  pbind (pmapOpt (ptake 2) fromStrU32) (fun minute =>
  pbind (ptag [58]) (fun _ =>
  pbind (pmapOpt (ptake 2) fromStrU32) (fun second =>
  pbind (popt (pmapOpt
      (precognize (pbind (ptag [46]) (fun _ => ptakeWhile isDigitB)))
      fracOpt)) (fun fractional =>
  pbind (pmapOpt (pvalue ()) (fun _ =>
    match fractional with
    | some n => if validHmsNano hour minute second n then some () else none
    | none => if validHms hour minute second then some () else none))
    (fun _ =>
  pmapOpt (pvalue ()) (fun _ =>
    if validYmd year month day then
      some { year := year, month := month, day := day,
             hour := hour, minute := minute, second := second,
             nano := fractional.getD 0 }
    else none))))))))))))

/-- `date_v`: the compact absolute form, else a signed nanosecond offset
from the reference instant (`alt_complete!`). -/
def date_v : Parser NDT :=
  paltc dateCompact (pcomplete (pmap int_v epochPlusNanos))

/-- `binary_v`: `0x` plus a hex-digit run decoded by `from_hex`, or a
double-quoted literal whose interior bytes are taken verbatim. -/
def binary_v : Parser (List Nat) :=
  paltc
    (precededBy (ptag [48, 120]) (pmapOpt (ptakeWhile isHexB) fromHex))
    (pcomplete
      (pmap (delimitedBy (ptag [34]) (precognize (ptakeUntil [34])) (ptag [34]))
        (fun slice => slice)))

/-! ## Data model (crate root, not under src/) -/

/-- Modelled from the spec: per-ordered-domain range items
{Single, Bounded, From, To} for the int domain. -/
inductive IntRangeItem where
  | single (v : Int)
  | bounded (start stop : Int)
  | fromStart (start : Int)
  | toEnd (stop : Int)
deriving DecidableEq

/-- Modelled from the spec: range items for the uint domain. -/
inductive UintRangeItem where
  | single (v : Nat)
  | bounded (start stop : Nat)
  | fromStart (start : Nat)
  | toEnd (stop : Nat)
deriving DecidableEq

/-- Modelled from the spec: range items for the date domain. -/
inductive DateRangeItem where
  | single (v : NDT)
  | bounded (start stop : NDT)
  | fromStart (start : NDT)
  | toEnd (stop : NDT)
deriving DecidableEq

/-- Modelled from the spec: float range items with inclusive/exclusive
flags (float values abstracted to literal text). -/
inductive FloatRangeItem where
  | bounded (start : List Nat) (includeStart : Bool) (stop : List Nat) (includeEnd : Bool)
  | fromStart (start : List Nat) (includeStart : Bool)
  | toEnd (stop : List Nat) (includeEnd : Bool)
deriving DecidableEq

/-- Modelled from the spec: the `Property` tagged union. -/
inductive Property where
  | intDefault (v : Int)
  | uintDefault (v : Nat)
  | floatDefault (v : List Nat)
  | dateDefault (v : NDT)
  | stringDefault (v : List Nat)
  | binaryDefault (v : List Nat)
  | intRange (v : List IntRangeItem)
  | uintRange (v : List UintRangeItem)
  | floatRange (v : List FloatRangeItem)
  | dateRange (v : List DateRangeItem)
  | size (v : List UintRangeItem)
  | ordered (v : Bool)
deriving DecidableEq

/-- Modelled from the spec: a `NewType` record — name, scalar kind, at
most one default and one range; `dtype` only ever constructs the Int and
Uint kinds. -/
inductive NewType where
  | int (nm : List Nat) (default : Option Int) (range : Option (List IntRangeItem))
  | uint (nm : List Nat) (default : Option Nat) (range : Option (List UintRangeItem))
deriving DecidableEq

/-- Modelled from the spec: `NewType::update` — the two-slot reducer:
a default property overwrites the default slot, a range property the range
slot, each independently of the other. -/
def NewType.update : NewType → Property → NewType
  | .int nm _ r, .intDefault v => .int nm (some v) r
  | .int nm d _, .intRange v => .int nm d (some v)
  | .uint nm _ r, .uintDefault v => .uint nm (some v) r
  | .uint nm d _, .uintRange v => .uint nm d (some v)
  | nt, _ => nt

/-- Modelled from the spec: a header statement — a name bound to a typed
literal. -/
inductive HeaderStatement where
  | uint (nm : List Nat) (value : Nat)
  | int (nm : List Nat) (value : Int)
  | float (nm : List Nat) (value : List Nat)
  | date (nm : List Nat) (value : NDT)
  | string (nm : List Nat) (value : List Nat)
  | binary (nm : List Nat) (value : List Nat)
  | named (nm : List Nat) (value : List Nat)
deriving DecidableEq

/-- The `Type` tag enumeration of the source (`Type` itself is not a legal
Lean identifier). -/
inductive Ty where
  | int
  | uint
  | float
  | string
  | date
  | binary
  | container
  | name (n : List Nat)
deriving DecidableEq

/-- `type_`: ordered complete choice over the seven keywords, then a bare
name as a user-type reference. -/
def type_ : Parser Ty :=
  paltc (pmap (ptag (asciiBytes "int")) (fun _ => Ty.int))
  (paltc (pmap (ptag (asciiBytes "uint")) (fun _ => Ty.uint))
  (paltc (pmap (ptag (asciiBytes "float")) (fun _ => Ty.float))
  (paltc (pmap (ptag (asciiBytes "string")) (fun _ => Ty.string))
  (paltc (pmap (ptag (asciiBytes "date")) (fun _ => Ty.date))
  (paltc (pmap (ptag (asciiBytes "binary")) (fun _ => Ty.binary))
  (paltc (pmap (ptag (asciiBytes "container")) (fun _ => Ty.container))
    (pcomplete (pmap name Ty.name))))))))

/-! ## Constraint grammars -/

/-- `tuple!(tag!(kw), separator, tag!(":"), separator)`: the opening of
every property grammar. -/
def propHeader (kw : List Nat) : Parser Unit :=
  pbind (ptag kw) (fun _ =>
  pbind separator (fun _ =>
  pbind (ptag [58]) (fun _ =>
  pmap separator (fun _ => ()))))

/-- `pair!(separator, tag!(";"))`: the closing of every property grammar
and of every header statement. -/
def sepSemi : Parser (List Nat) :=
  pbind separator (fun _ => ptag [59])

/-- `delimited!(separator, tag!(","), separator)`: the list separator. -/
def commaSep : Parser (List Nat) :=
  delimitedBy separator (ptag [44]) separator

/-- The repetition loop of `separated_nonempty_list_complete!` after a
first element: separator then element, stopping (without consuming a
trailing separator) at the first failure or non-consuming step.  Fuel is
the input length plus one and cannot be exhausted. -/
def sepListLoop (sep : Parser α) (item : Parser β) : Nat → List Nat → List β → PResult (List β)
  | 0, i, acc => .done i acc.reverse
  | fuel + 1, i, acc =>
    match pcomplete sep i with
    | .done i2 _ =>
      if i2.length = i.length then .done i acc.reverse
      else
        match pcomplete item i2 with
        | .done i3 v =>
          if i3.length = i2.length then .done i acc.reverse
          else sepListLoop sep item fuel i3 (v :: acc)
        | _ => .done i acc.reverse
    | _ => .done i acc.reverse

/-- `separated_nonempty_list_complete!`: both sub-parsers wrapped in
`complete!`; a failing first element fails the list, a first element that
consumes nothing is a non-match. -/
def sepNonemptyListC (sep : Parser α) (item : Parser β) : Parser (List β) := fun i =>
  match pcomplete item i with
  | .done i1 v =>
    if i1.length = i.length then .error
    else sepListLoop sep item (i1.length + 1) i1 [v]
  | .error => .error
  | .incomplete => .incomplete

/-- One int-range item: bounded, open-from, open-to, single — ordered
complete choice. -/
def intRangeItemP : Parser IntRangeItem :=
  paltc
    (pbind int_v (fun s =>
      pbind (ptag [46, 46]) (fun _ =>
      pmap int_v (fun e => IntRangeItem.bounded s e))))
  (paltc
    (pmap (terminatedBy int_v (ptag [46, 46])) (fun s => IntRangeItem.fromStart s))
  (paltc
    (pmap (precededBy (ptag [46, 46]) int_v) (fun e => IntRangeItem.toEnd e))
    (pcomplete (pmap int_v IntRangeItem.single))))

/-- `int_range`. -/
def int_range : Parser Property :=
  delimitedBy (propHeader (asciiBytes "range"))
    (pmap (sepNonemptyListC commaSep intRangeItemP) Property.intRange)
    sepSemi

/-- One uint-range item: bounded, open-from, single (no open-to form). -/
def uintRangeItemP : Parser UintRangeItem :=
  paltc
    (pbind uint_v (fun s =>
      pbind (ptag [46, 46]) (fun _ =>
      pmap uint_v (fun e => UintRangeItem.bounded s e))))
  (paltc
    (pmap (terminatedBy uint_v (ptag [46, 46])) (fun s => UintRangeItem.fromStart s))
    (pcomplete (pmap uint_v UintRangeItem.single)))

/-- `uint_range`. -/
def uint_range : Parser Property :=
  delimitedBy (propHeader (asciiBytes "range"))
    (pmap (sepNonemptyListC commaSep uintRangeItemP) Property.uintRange)
    sepSemi

/-- One date-range item: bounded, open-from, open-to (no single form). -/
def dateRangeItemP : Parser DateRangeItem :=
  paltc
    (pbind date_v (fun s =>
      pbind (ptag [46, 46]) (fun _ =>
      pmap date_v (fun e => DateRangeItem.bounded s e))))
  (paltc
    (pmap (terminatedBy date_v (ptag [46, 46])) (fun s => DateRangeItem.fromStart s))
    (pcomplete (pmap (precededBy (ptag [46, 46]) date_v) (fun e => DateRangeItem.toEnd e))))

/-- `date_range`. -/
def date_range : Parser Property :=
  delimitedBy (propHeader (asciiBytes "range"))
    (pmap (sepNonemptyListC commaSep dateRangeItemP) Property.dateRange)
    sepSemi

/-- `size`: the same grammar as `uint_range` under the `size` keyword. -/
def size : Parser Property :=
  delimitedBy (propHeader (asciiBytes "size"))
    (pmap (sepNonemptyListC commaSep uintRangeItemP) Property.size)
    sepSemi

/-- `int_def`. -/
def int_def : Parser Property :=
  delimitedBy (propHeader (asciiBytes "def"))
    (pmap int_v Property.intDefault)
    sepSemi

/-- `uint_def`. -/
def uint_def : Parser Property :=
  delimitedBy (propHeader (asciiBytes "def"))
    (pmap uint_v Property.uintDefault)
    sepSemi

/-! ## Type declarations -/

/-- The repetition loop of `fold_many1!` after a first element. -/
def foldMany1Loop (p : Parser α) (f : β → α → β) : Nat → List Nat → β → PResult β
  | 0, i, acc => .done i acc
  | fuel + 1, i, acc =>
    if i = [] then .done i acc
    else
      match p i with
      | .error => .done i acc
      | .incomplete => .incomplete
      | .done i2 v =>
        if i2.length = i.length then .error
        else foldMany1Loop p f fuel i2 (f acc v)

/-- `fold_many1!`: the first element must match, the rest as `fold_many0!`. -/
def foldMany1 (p : Parser α) (init : β) (f : β → α → β) : Parser β := fun i =>
  match p i with
  | .error => .error
  | .incomplete => .incomplete
  | .done i2 v => foldMany1Loop p f (i2.length + 1) i2 (f init v)

/-- The bracketed property block of an `int` declaration. -/
def intPropsBlock (nm : List Nat) : Parser NewType :=
  delimitedBy
    (pbind separator (fun _ => pbind (ptag [91]) (fun _ => separator)))
    (foldMany1 (precededBy separator (paltc int_range (pcomplete int_def)))
      (NewType.int nm none none) NewType.update)
    (pbind separator (fun _ =>
      pbind (ptag [93]) (fun _ =>
      pbind separator (fun _ => popt (ptag [59])))))

/-- The bracketed property block of a `uint` declaration. -/
def uintPropsBlock (nm : List Nat) : Parser NewType :=
  delimitedBy
    (pbind separator (fun _ => pbind (ptag [91]) (fun _ => separator)))
    (foldMany1 (precededBy separator (paltc uint_range (pcomplete uint_def)))
      (NewType.uint nm none none) NewType.update)
    (pbind separator (fun _ =>
      pbind (ptag [93]) (fun _ =>
      pbind separator (fun _ => popt (ptag [59])))))

/-- `dtype`: name, `:=`, a type tag, then — for `int` and `uint` only — an
optional bracketed property block; every other tag yields the empty
Int-typed record without consuming anything further. -/
def dtype : Parser NewType :=
  pbind name (fun nm =>
  pbind separator (fun _ =>
  pbind (ptag [58, 61]) (fun _ =>
  pbind separator (fun _ =>
  pbind type_ (fun t =>
    match t with
    | .int => paltc (intPropsBlock nm) (pcomplete (pvalue (NewType.int nm none none)))
    | .uint => paltc (uintPropsBlock nm) (pcomplete (pvalue (NewType.uint nm none none)))
    | _ => pvalue (NewType.int nm none none))))))

/-! ## Header block -/

/-- The ordered literal alternatives of a header statement: unsigned
integer, signed integer, float, date, string, binary, bare name — each
including the terminating separator and semicolon. -/
def headerValue (nm : List Nat) : Parser HeaderStatement :=
  paltc (pmap (terminatedBy uint_v sepSemi) (fun v => HeaderStatement.uint nm v))
  (paltc (pmap (terminatedBy int_v sepSemi) (fun v => HeaderStatement.int nm v))
  (paltc (pmap (terminatedBy float_v sepSemi) (fun v => HeaderStatement.float nm v))
  (paltc (pmap (terminatedBy date_v sepSemi) (fun v => HeaderStatement.date nm v))
  (paltc (pmap (terminatedBy (pmapOpt binary_v utf8Check) sepSemi)
            (fun v => HeaderStatement.string nm v))
  (paltc (pmap (terminatedBy binary_v sepSemi) (fun v => HeaderStatement.binary nm v))
    (pcomplete (pmap (terminatedBy name sepSemi) (fun v => HeaderStatement.named nm v))))))))

/-- `header_statement`: `name := literal ;` with the literal kind resolved
by ordered trial. -/
def header_statement : Parser HeaderStatement :=
  pbind name (fun nm =>
  pbind separator (fun _ =>
  pbind (ptag [58, 61]) (fun _ =>
  pbind separator (fun _ =>
  headerValue nm))))

/-- `hblock`: `declare header {` then a non-empty separated statement
list (the closing brace is not part of the grammar as written). -/
def hblock : Parser (List HeaderStatement) :=
  precededBy
    (pbind (ptag (asciiBytes "declare")) (fun _ =>
     pbind separator (fun _ =>
     pbind (ptag (asciiBytes "header")) (fun _ =>
     pbind separator (fun _ =>
     pbind (ptag [123]) (fun _ => separator))))))
    (sepNonemptyListC separator header_statement)

/-! ## Specification helpers for the theorems -/

/-- The hex-digit values of a string, whitespace removed. -/
def hexVals (s : List Nat) : List Nat := (s.filter isHexB).map hexVal

/-- Pair a list of nibble values into bytes; odd length fails. -/
def pairUp : List Nat → Option (List Nat)
  | [] => some []
  | [_] => none
  | a :: b :: r => (pairUp r).map (fun l => (16 * a + b) :: l)

/-- Re-encode bytes as their nibble-value pairs. -/
def hexEncode (bs : List Nat) : List Nat :=
  bs.flatMap (fun b => [b / 16, b % 16])

/-- Is a property one of the two uint slots. -/
def uintProp : Property → Bool
  | .uintDefault _ => true
  | .uintRange _ => true
  | _ => false

/-- Is a property one of the two int slots. -/
def intProp : Property → Bool
  | .intDefault _ => true
  | .intRange _ => true
  | _ => false

/-- The last uint default in a property list, folded left to right over a
start value. -/
def updDU (a : Option Nat) (p : Property) : Option Nat :=
  match p with
  | .uintDefault v => some v
  | _ => a

/-- The last uint range in a property list. -/
def updRU (a : Option (List UintRangeItem)) (p : Property) : Option (List UintRangeItem) :=
  match p with
  | .uintRange v => some v
  | _ => a

/-- The last int default in a property list. -/
def updDI (a : Option Int) (p : Property) : Option Int :=
  match p with
  | .intDefault v => some v
  | _ => a

/-- The last int range in a property list. -/
def updRI (a : Option (List IntRangeItem)) (p : Property) : Option (List IntRangeItem) :=
  match p with
  | .intRange v => some v
  | _ => a

/-! ## Shared helper lemmas -/

theorem takeWhile_append_of_all {p : Nat → Bool} :
    ∀ (t l : List Nat), t.all p = true → (t ++ l).takeWhile p = t ++ l.takeWhile p := by
  intro t l h
  induction t with
  | nil => simp
  | cons b r ih =>
    simp only [List.all_cons, Bool.and_eq_true] at h
    simp [List.takeWhile_cons, h.1, ih h.2]

theorem dropWhile_append_of_all {p : Nat → Bool} :
    ∀ (t l : List Nat), t.all p = true → (t ++ l).dropWhile p = l.dropWhile p := by
  intro t l h
  induction t with
  | nil => simp
  | cons b r ih =>
    simp only [List.all_cons, Bool.and_eq_true] at h
    simp [List.dropWhile_cons, h.1, ih h.2]

theorem takeWhile_cons_false {p : Nat → Bool} {b : Nat} (l : List Nat)
    (h : p b = false) : (b :: l).takeWhile p = [] := by
  simp [List.takeWhile_cons, h]

theorem dropWhile_cons_false {p : Nat → Bool} {b : Nat} (l : List Nat)
    (h : p b = false) : (b :: l).dropWhile p = b :: l := by
  simp [List.dropWhile_cons, h]

theorem dropWhile_head_false {p : Nat → Bool} :
    ∀ (l : List Nat) {b : Nat} {r : List Nat}, l.dropWhile p = b :: r → p b = false := by
  intro l
  induction l with
  | nil => intro b r h; simp [List.dropWhile] at h
  | cons a t ih =>
    intro b r h
    by_cases ha : p a = true
    · rw [List.dropWhile_cons_of_pos ha] at h; exact ih h
    · rw [List.dropWhile_cons_of_neg ha] at h
      cases h
      exact Bool.eq_false_iff.mpr ha

theorem all_takeWhile {p : Nat → Bool} : ∀ (l : List Nat), (l.takeWhile p).all p = true := by
  intro l
  induction l with
  | nil => simp
  | cons a t ih =>
    by_cases ha : p a = true
    · rw [List.takeWhile_cons_of_pos ha]; simp [ha, ih]
    · rw [List.takeWhile_cons_of_neg ha]; simp

theorem ptag_self_append (t l : List Nat) : ptag t (t ++ l) = .done l t := by
  unfold ptag
  rw [if_pos]
  · simp
  · induction t with
    | nil => simp [List.isPrefixOf]
    | cons a r ih => simp [List.isPrefixOf, ih]

theorem ptag_cons_ne {a b : Nat} (t l : List Nat) (h : a ≠ b) :
    ptag (a :: t) (b :: l) = .error := by
  unfold ptag
  rw [if_neg, if_neg]
  · simp [List.isPrefixOf]; intro hab; exact absurd hab.symm h
  · simp [List.isPrefixOf]; intro hab; exact absurd hab h

/-- A buffer whose first byte is neither whitespace nor a slash passes the
separator untouched. -/
theorem separator_cons_other {b : Nat} (l : List Nat)
    (hw : wsb b = false) (hs : b ≠ 47) : separator (b :: l) = .done (b :: l) () := by
  unfold separator
  rw [dropWhile_cons_false l hw]
  have hcomment : comment (b :: l) = .error := by
    unfold comment palt lcomment bcomment
    unfold pmapOpt precededBy pbind
    rw [ptag_cons_ne _ _ (fun h => hs h.symm), ptag_cons_ne _ _ (fun h => hs h.symm)]
  have hwsc : wsComment (b :: l) = .error := by
    unfold wsComment
    rw [dropWhile_cons_false l hw, hcomment]
  simp only [List.length_cons, foldCommentsF]
  rw [if_neg (by simp), hwsc]
  simp [dropWhile_cons_false l hw]

theorem separator_nil : separator [] = .done [] () := by
  unfold separator
  simp [List.dropWhile, foldCommentsF]

/-- The `name` parser takes exactly a valid name when the next byte cannot
continue it. -/
theorem name_append (b c : Nat) (t r : List Nat)
    (hb : nameStartByte b = true) (ht : t.all nameContByte = true)
    (hc : nameContByte c = false) :
    name ((b :: t) ++ (c :: r)) = .done (c :: r) (b :: t) := by
  unfold name
  simp only [List.cons_append]
  rw [if_pos hb, takeWhile_append_of_all t (c :: r) ht,
    dropWhile_append_of_all t (c :: r) ht,
    takeWhile_cons_false r hc, dropWhile_cons_false r hc]
  simp

/-! ## C2: range-item alternative order and the missing date single form -/

/-- C2 counterexample: the date range parser rejects a single-value item
(`range:1234;` does not parse), refuting "each domain's parser accepts a
single-value item". -/
theorem date_range_single_value_fails :
    date_range (asciiBytes "range:1234;") = .error := by decide

/-- C2 (amended): per ordered domain the item alternatives are tried in
the fixed order bounded, open-from, open-to (int and date only), single
(int and uint only); `-1..4,5,66..` parses to exactly
[Bounded, Single, From] in order; int and uint accept single items while
the date domain offers only bounded, open-from and open-to. -/
theorem range_alternative_order :
    int_range (asciiBytes "range:-1..4,5,66..;") =
      .done [] (.intRange [.bounded (-1) 4, .single 5, .fromStart 66]) ∧
    int_range (asciiBytes "range:7;") = .done [] (.intRange [.single 7]) ∧
    uint_range (asciiBytes "range:45;") = .done [] (.uintRange [.single 45]) ∧
    date_range (asciiBytes "range:1234..5678;") =
      .done [] (.dateRange [.bounded ⟨2001, 1, 1, 0, 0, 0, 1234⟩ ⟨2001, 1, 1, 0, 0, 0, 5678⟩]) ∧
    date_range (asciiBytes "range:1234..;") =
      .done [] (.dateRange [.fromStart ⟨2001, 1, 1, 0, 0, 0, 1234⟩]) ∧
    date_range (asciiBytes "range:..1234;") =
      .done [] (.dateRange [.toEnd ⟨2001, 1, 1, 0, 0, 0, 1234⟩]) ∧
    date_range (asciiBytes "range:1234;") = .error := by decide

/-! ## C6: the two date-literal forms -/

/-- C6 counterexample: on the bare buffer `20170101T00:00:00` the optional
fractional part signals incomplete input, the compact alternative is
abandoned, and the ordered choice falls back to the integer-nanosecond
form, yielding the reference instant plus 20170101 ns with `T00:00:00`
left unconsumed — not the absolute date 2017-01-01T00:00:00. -/
theorem date_v_bare_compact_falls_back :
    date_v (asciiBytes "20170101T00:00:00") =
      .done (asciiBytes "T00:00:00") ⟨2001, 1, 1, 0, 0, 0, 20170101⟩ := by decide

/-- C6 (amended): the date literal grammar is the ordered choice of the
compact absolute form and the signed integer nanosecond offset from
2001-01-01T00:00:00.  When the seconds field is followed by any byte other
than a dot (as in every terminated context), `20170101T00:00:00` yields
the absolute date 2017-01-01T00:00:00 with zero nanoseconds; `1234` yields
the reference instant plus 1234 ns; an invalid month makes the compact
alternative fail (falling back to the integer form); a fractional part is
converted to nanoseconds. -/
theorem date_v_two_forms :
    date_v (asciiBytes "20170101T00:00:00;") = .done [59] ⟨2017, 1, 1, 0, 0, 0, 0⟩ ∧
    date_v (asciiBytes "1234") = .done [] ⟨2001, 1, 1, 0, 0, 0, 1234⟩ ∧
    dateCompact (asciiBytes "20171301T00:00:00;") = .error ∧
    date_v (asciiBytes "20171301T00:00:00;") =
      .done (asciiBytes "T00:00:00;") ⟨2001, 1, 1, 0, 0, 0, 20171301⟩ ∧
    date_v (asciiBytes "20170101T00:00:00.5;") =
      .done [59] ⟨2017, 1, 1, 0, 0, 0, 500000000⟩ := by decide

/-! ## C7: the header block grammar -/

/-- C7 counterexample: `hblock` succeeds on a well-formed header block but
leaves the closing brace (byte 125) in the remainder — the grammar as
written never consumes `}`. -/
theorem hblock_leaves_closing_brace :
    hblock (asciiBytes "declare header \x7b A := 1; \x7d") =
      .done (asciiBytes " \x7d") [.uint (asciiBytes "A") 1] ∧
    (asciiBytes " \x7d").contains 125 = true := by decide

/-- C7 (amended): `hblock` consumes `declare`, `header` and the opening
brace, then a non-empty ordered sequence of `name := literal ;`
statements; an empty statement list fails; the closing brace is not
consumed and stays in the remainder. -/
theorem hblock_grammar :
    hblock (asciiBytes "declare header \x7b Foo := 1; Bar := \"x\"; \x7d") =
      .done (asciiBytes " \x7d")
        [.uint (asciiBytes "Foo") 1, .string (asciiBytes "Bar") (asciiBytes "x")] ∧
    hblock (asciiBytes "declare header \x7b \x7d") = .error := by decide

/-! ## C8: totality of the separator -/

theorem isPrefixOf_length_le : ∀ (t i : List Nat), t.isPrefixOf i = true → t.length ≤ i.length := by
  intro t
  induction t with
  | nil => intro i _; simp
  | cons a r ih =>
    intro i h
    cases i with
    | nil => simp [List.isPrefixOf] at h
    | cons b j =>
      simp only [List.isPrefixOf, Bool.and_eq_true] at h
      simpa using ih j h.2

theorem ptag_done_rest {t i r : List Nat} {v : List Nat} (h : ptag t i = .done r v) :
    r = i.drop t.length ∧ t.length ≤ i.length := by
  unfold ptag at h
  by_cases h1 : t.isPrefixOf i = true
  · rw [if_pos h1] at h
    cases h
    exact ⟨rfl, isPrefixOf_length_le t i h1⟩
  · rw [if_neg h1] at h
    split at h <;> cases h

theorem ptakeUC_done_len {t i r : List Nat} {v : List Nat}
    (h : ptakeUntilAndConsume t i = .done r v) : r.length ≤ i.length := by
  unfold ptakeUntilAndConsume at h
  split at h
  · cases h
    simp
  · cases h

theorem pbind_done_inv {p : Parser α} {f : α → Parser β} {i r : List Nat} {w : β}
    (h : pbind p f i = .done r w) :
    ∃ r1 v, p i = .done r1 v ∧ f v r1 = .done r w := by
  unfold pbind at h
  split at h
  · rename_i r1 v heq
    exact ⟨r1, v, heq, h⟩
  · cases h
  · cases h

theorem pmap_done_inv {p : Parser α} {f : α → β} {i r : List Nat} {w : β}
    (h : pmap p f i = .done r w) : ∃ v, p i = .done r v ∧ f v = w := by
  unfold pmap at h
  split at h
  · rename_i r1 v heq
    cases h
    exact ⟨v, heq, rfl⟩
  · cases h
  · cases h

theorem pmapOpt_done_inv {p : Parser α} {f : α → Option β} {i r : List Nat} {w : β}
    (h : pmapOpt p f i = .done r w) : ∃ v, p i = .done r v ∧ f v = some w := by
  unfold pmapOpt at h
  split at h
  · rename_i r1 v heq
    split at h
    · rename_i w1 hf
      cases h
      exact ⟨v, heq, hf⟩
    · cases h
  · cases h
  · cases h

theorem lcomment_done_lt {i r : List Nat} {v : List Nat} (h : lcomment i = .done r v) :
    r.length < i.length := by
  unfold lcomment at h
  obtain ⟨v1, hinner, _⟩ := pmapOpt_done_inv h
  unfold precededBy at hinner
  obtain ⟨r1, v2, htag, hrest⟩ := pbind_done_inv hinner
  have hrest' : ptakeUntilAndConsume [10] r1 = .done r v1 := hrest
  have h1 := ptag_done_rest htag
  have h2 := ptakeUC_done_len hrest'
  have h3 : r1.length = i.length - 2 := by rw [h1.1]; simp
  have h4 : 2 ≤ i.length := by simpa using h1.2
  omega

theorem bcomment_done_lt {i r : List Nat} {v : List Nat} (h : bcomment i = .done r v) :
    r.length < i.length := by
  unfold bcomment at h
  obtain ⟨v1, hinner, _⟩ := pmapOpt_done_inv h
  unfold precededBy at hinner
  obtain ⟨r1, v2, htag, hrest⟩ := pbind_done_inv hinner
  have hrest' : ptakeUntilAndConsume [42, 47] r1 = .done r v1 := hrest
  have h1 := ptag_done_rest htag
  have h2 := ptakeUC_done_len hrest'
  have h3 : r1.length = i.length - 2 := by rw [h1.1]; simp
  have h4 : 2 ≤ i.length := by simpa using h1.2
  omega

theorem comment_done_lt {i r : List Nat} {v : List Nat} (h : comment i = .done r v) :
    r.length < i.length := by
  unfold comment palt at h
  cases hl : lcomment i with
  | done r1 v1 =>
    rw [hl] at h
    have h' : PResult.done r1 v1 = PResult.done r v := h
    cases h'
    exact lcomment_done_lt hl
  | error =>
    rw [hl] at h
    have h' : bcomment i = PResult.done r v := h
    exact bcomment_done_lt h'
  | incomplete =>
    rw [hl] at h
    have h' : (PResult.incomplete : PResult (List Nat)) = .done r v := h
    cases h'

theorem length_dropWhile_le_self {p : Nat → Bool} : ∀ (l : List Nat),
    (l.dropWhile p).length ≤ l.length := by
  intro l
  induction l with
  | nil => simp [List.dropWhile]
  | cons a t ih =>
    by_cases ha : p a = true
    · rw [List.dropWhile_cons_of_pos ha]; simp; omega
    · rw [List.dropWhile_cons_of_neg ha]

theorem wsComment_done_lt {i r : List Nat} {v : List Nat} (h : wsComment i = .done r v) :
    r.length < i.length := by
  unfold wsComment at h
  cases hc : comment (i.dropWhile wsb) with
  | done i2 v2 =>
    rw [hc] at h
    cases h
    have h1 := comment_done_lt hc
    have h2 := length_dropWhile_le_self (p := wsb) i
    have h3 := length_dropWhile_le_self (p := wsb) i2
    omega
  | error => rw [hc] at h; cases h
  | incomplete => rw [hc] at h; cases h

theorem foldCommentsF_ne_error : ∀ (fuel : Nat) (i : List Nat),
    foldCommentsF fuel i ≠ .error := by
  intro fuel
  induction fuel with
  | zero => intro i h; simp [foldCommentsF] at h
  | succ n ih =>
    intro i h
    unfold foldCommentsF at h
    by_cases hi : i = []
    · rw [if_pos hi] at h; cases h
    · rw [if_neg hi] at h
      cases hw : wsComment i with
      | done i2 v =>
        rw [hw] at h
        have hlt := wsComment_done_lt hw
        have h' : (if i2.length = i.length then PResult.error else foldCommentsF n i2) =
            PResult.error := h
        rw [if_neg (by omega)] at h'
        exact ih i2 h'
      | error =>
        rw [hw] at h
        have h' : PResult.done i () = PResult.error := h
        cases h'
      | incomplete =>
        rw [hw] at h
        have h' : (PResult.incomplete : PResult Unit) = PResult.error := h
        cases h'

theorem separator_ne_error : ∀ (i : List Nat), separator i ≠ .error := by
  intro i h
  unfold separator at h
  have h' : (match foldCommentsF ((i.dropWhile wsb).length + 1) (i.dropWhile wsb) with
      | PResult.done i2 _ => PResult.done (i2.dropWhile wsb) ()
      | PResult.error => PResult.error
      | PResult.incomplete => (PResult.incomplete : PResult Unit)) = PResult.error := h
  cases hf : foldCommentsF ((i.dropWhile wsb).length + 1) (i.dropWhile wsb) with
  | done i2 v =>
    rw [hf] at h'
    have h2 : PResult.done (i2.dropWhile wsb) () = PResult.error := h'
    cases h2
  | error => exact foldCommentsF_ne_error _ _ hf
  | incomplete =>
    rw [hf] at h'
    have h2 : (PResult.incomplete : PResult Unit) = PResult.error := h'
    cases h2

/-- C8 counterexample: on the two-byte buffer `/*` the block comment is
opened but never terminated, and the separator signals incomplete input
rather than succeeding. -/
theorem separator_incomplete_on_open_comment :
    separator (asciiBytes "/*") = .incomplete := by decide

/-- C8 (amended): the separator never returns a local non-match; it
succeeds — consuming greedily, zero-width allowed — on every input except
one ending inside an unterminated comment (or a lone comment-opening
prefix), where it signals incomplete input. -/
theorem separator_total_no_error :
    (∀ i : List Nat, separator i ≠ .error) ∧
    separator [] = .done [] () ∧
    separator (asciiBytes "  // c\n /* b */ x") = .done (asciiBytes "x") () ∧
    separator (asciiBytes "/*") = .incomplete :=
  ⟨separator_ne_error, by decide, by decide, by decide⟩

/-! ## Forward-evaluation toolkit -/

theorem pbind_of_done {p : Parser α} {f : α → Parser β} {i r : List Nat} {v : α}
    (h : p i = .done r v) : pbind p f i = f v r := by
  unfold pbind; rw [h]

theorem pbind_of_error {p : Parser α} (f : α → Parser β) {i : List Nat}
    (h : p i = .error) : pbind p f i = .error := by
  unfold pbind; rw [h]

theorem pmap_of_done {p : Parser α} {f : α → β} {i r : List Nat} {v : α}
    (h : p i = .done r v) : pmap p f i = .done r (f v) := by
  unfold pmap; rw [h]

theorem pmap_of_error {p : Parser α} (f : α → β) {i : List Nat}
    (h : p i = .error) : pmap p f i = .error := by
  unfold pmap; rw [h]

theorem pmapOpt_of_some {p : Parser α} {f : α → Option β} {i r : List Nat} {v : α} {w : β}
    (h : p i = .done r v) (hf : f v = some w) : pmapOpt p f i = .done r w := by
  unfold pmapOpt
  rw [h]
  show (match f v with
    | some w1 => PResult.done r w1
    | none => PResult.error) = PResult.done r w
  rw [hf]

theorem pmapOpt_of_none {p : Parser α} {f : α → Option β} {i r : List Nat} {v : α}
    (h : p i = .done r v) (hf : f v = none) : pmapOpt p f i = .error := by
  unfold pmapOpt
  rw [h]
  show (match f v with
    | some w1 => PResult.done r w1
    | none => PResult.error) = PResult.error
  rw [hf]

theorem pmapOpt_of_error {p : Parser α} (f : α → Option β) {i : List Nat}
    (h : p i = .error) : pmapOpt p f i = .error := by
  unfold pmapOpt; rw [h]

theorem pcomplete_of_done {p : Parser α} {i r : List Nat} {v : α}
    (h : p i = .done r v) : pcomplete p i = .done r v := by
  unfold pcomplete; rw [h]

theorem pcomplete_of_error {p : Parser α} {i : List Nat}
    (h : p i = .error) : pcomplete p i = .error := by
  unfold pcomplete; rw [h]

theorem paltc_of_done {p q : Parser α} {i r : List Nat} {v : α}
    (h : p i = .done r v) : paltc p q i = .done r v := by
  unfold paltc; rw [pcomplete_of_done h]

theorem paltc_of_error {p : Parser α} (q : Parser α) {i : List Nat}
    (h : p i = .error) : paltc p q i = q i := by
  unfold paltc; rw [pcomplete_of_error h]

theorem ptakeWhile_eq {p : Nat → Bool} (i : List Nat) :
    ptakeWhile p i = .done (i.dropWhile p) (i.takeWhile p) := rfl

theorem pcomplete_done_inv {p : Parser α} {i r : List Nat} {v : α}
    (h : pcomplete p i = .done r v) : p i = .done r v := by
  unfold pcomplete at h
  cases hp : p i with
  | done r1 v1 =>
    rw [hp] at h
    have h' : PResult.done r1 v1 = PResult.done r v := h
    cases h'
    rfl
  | error =>
    rw [hp] at h
    have h' : (PResult.error : PResult α) = .done r v := h
    cases h'
  | incomplete =>
    rw [hp] at h
    have h' : (PResult.error : PResult α) = .done r v := h
    cases h'

theorem paltc_done_inv {p q : Parser α} {i r : List Nat} {v : α}
    (h : paltc p q i = .done r v) :
    p i = .done r v ∨ (pcomplete p i = .error ∧ q i = .done r v) := by
  unfold paltc at h
  cases hp : pcomplete p i with
  | done r1 v1 =>
    rw [hp] at h
    have h' : PResult.done r1 v1 = PResult.done r v := h
    cases h'
    exact .inl (pcomplete_done_inv hp)
  | error =>
    rw [hp] at h
    have h' : q i = .done r v := h
    exact .inr ⟨rfl, h'⟩
  | incomplete =>
    rw [hp] at h
    have h' : (PResult.incomplete : PResult α) = .done r v := h
    cases h'

/-! ## C9: the uint range and size grammars reject the open-to form -/

theorem uint_v_nondigit {b : Nat} (rest : List Nat) (hb : isDigitB b = false) :
    uint_v (b :: rest) = .error := by
  unfold uint_v
  have htw : ptakeWhile isDigitB (b :: rest) = .done (b :: rest) [] := by
    rw [ptakeWhile_eq, takeWhile_cons_false rest hb, dropWhile_cons_false rest hb]
  exact pmapOpt_of_none htw (by decide)

theorem uintRangeItemP_nondigit {b : Nat} (rest : List Nat) (hb : isDigitB b = false) :
    uintRangeItemP (b :: rest) = .error := by
  have huv := uint_v_nondigit rest hb
  have h1 : pbind uint_v
      (fun s => pbind (ptag [46, 46]) (fun _ => pmap uint_v (fun e => UintRangeItem.bounded s e)))
      (b :: rest) = .error := pbind_of_error _ huv
  have h2 : pmap (terminatedBy uint_v (ptag [46, 46])) (fun s => UintRangeItem.fromStart s)
      (b :: rest) = .error :=
    pmap_of_error _ (by unfold terminatedBy; exact pbind_of_error _ huv)
  have h3 : pcomplete (pmap uint_v UintRangeItem.single) (b :: rest) = .error :=
    pcomplete_of_error (pmap_of_error _ huv)
  unfold uintRangeItemP
  rw [paltc_of_error _ h1, paltc_of_error _ h2]
  exact h3

theorem sepList_first_error {sep : Parser α} {item : Parser β} {i : List Nat}
    (h : item i = .error) : sepNonemptyListC sep item i = .error := by
  unfold sepNonemptyListC
  rw [pcomplete_of_error h]

theorem propHeader_append (kw : List Nat) (b : Nat) (rest : List Nat)
    (hb1 : wsb b = false) (hb2 : b ≠ 47) :
    propHeader kw (kw ++ 58 :: b :: rest) = .done (b :: rest) () := by
  unfold propHeader
  rw [pbind_of_done (ptag_self_append kw (58 :: b :: rest))]
  rw [pbind_of_done (separator_cons_other (b :: rest) (by decide) (by decide))]
  have e : ptag [58] (58 :: b :: rest) = .done (b :: rest) [58] :=
    ptag_self_append [58] (b :: rest)
  rw [pbind_of_done e]
  rw [pmap_of_done (separator_cons_other rest hb1 hb2)]

theorem uint_grammar_open_to_error (kw : List Nat) (ctor : List UintRangeItem → Property)
    (rest : List Nat) :
    delimitedBy (propHeader kw) (pmap (sepNonemptyListC commaSep uintRangeItemP) ctor)
      sepSemi (kw ++ 58 :: 46 :: 46 :: rest) = .error := by
  unfold delimitedBy precededBy
  rw [pbind_of_done (propHeader_append kw 46 (46 :: rest) (by decide) (by decide))]
  have hitem : uintRangeItemP (46 :: 46 :: rest) = .error :=
    uintRangeItemP_nondigit (46 :: rest) (by decide)
  have hlist : sepNonemptyListC commaSep uintRangeItemP (46 :: 46 :: rest) = .error :=
    sepList_first_error hitem
  unfold terminatedBy
  exact pbind_of_error _ (pmap_of_error _ hlist)

/-- C9: for any input whose range list begins with the open-to form
`..`, the uint range parser and the size parser fail with a non-match
(their item grammar has no alternative starting with a dot), while the
int range parser accepts the very same item form. -/
theorem uint_range_size_reject_open_to :
    (∀ rest : List Nat, uint_range (asciiBytes "range:.." ++ rest) = .error) ∧
    (∀ rest : List Nat, size (asciiBytes "size:.." ++ rest) = .error) ∧
    int_range (asciiBytes "range:..5;") = .done [] (.intRange [.toEnd 5]) := by
  refine ⟨fun rest => ?_, fun rest => ?_, by decide⟩
  · show uint_range (asciiBytes "range" ++ 58 :: 46 :: 46 :: rest) = .error
    exact uint_grammar_open_to_error (asciiBytes "range") Property.uintRange rest
  · show size (asciiBytes "size" ++ 58 :: 46 :: 46 :: rest) = .error
    exact uint_grammar_open_to_error (asciiBytes "size") Property.size rest

/-! ## C10: Int-variant header statements carry non-positive values -/

theorem head_eq_of_headq {s : List Nat} {b : Nat} (h : s.head? = some b) :
    ∃ t, s = b :: t := by
  cases s with
  | nil => simp at h
  | cons a t =>
    simp only [List.head?, Option.some.injEq] at h
    exact ⟨t, by rw [h]⟩

/-- A positive `i64::from_str` result comes from a pure digit run (given
that the string draws on the `int_v` alphabet of digits and minus). -/
theorem fromStrI64_pos {s : List Nat} {v : Int} (hall : s.all intVByte = true)
    (h : fromStrI64 s = some v) (hv : 0 < v) :
    s ≠ [] ∧ s.all isDigitB = true ∧ natOfDigits s < 2 ^ 63 ∧ v = (natOfDigits s : Int) := by
  unfold fromStrI64 at h
  by_cases h45 : s.head? = some 45
  · rw [if_pos h45] at h
    split at h
    · injection h with hh
      omega
    · cases h
  · rw [if_neg h45] at h
    by_cases h43 : s.head? = some 43
    · obtain ⟨t, rfl⟩ := head_eq_of_headq h43
      simp [intVByte, isDigitB] at hall
    · simp only [if_neg h43] at h
      split at h
      · rename_i hc
        injection h with hh
        exact ⟨hc.1, hc.2.1, hc.2.2, hh.symm⟩
      · cases h

/-- `u64::from_str` succeeds on a non-empty in-range digit run. -/
theorem fromStrU64_digits {s : List Nat} (h1 : s ≠ []) (h2 : s.all isDigitB = true)
    (h3 : natOfDigits s < 2 ^ 64) : fromStrU64 s = some (natOfDigits s) := by
  unfold fromStrU64
  have h43 : ¬ s.head? = some 43 := by
    cases s with
    | nil => simp
    | cons a t =>
      simp only [List.all_cons, Bool.and_eq_true] at h2
      simp only [List.head?, Option.some.injEq]
      intro hh
      subst hh
      simp [isDigitB] at h2
  simp only [if_neg h43]
  rw [if_pos ⟨h1, h2, h3⟩]

theorem takeWhile_split {q : Nat → Bool} (t j : List Nat) (ht : t.all q = true)
    (hj : ∀ b r', j = b :: r' → q b = false) :
    (t ++ j).takeWhile q = t ∧ (t ++ j).dropWhile q = j := by
  constructor
  · rw [takeWhile_append_of_all t j ht]
    cases j with
    | nil => simp
    | cons b r' => rw [takeWhile_cons_false r' (hj b r' rfl)]; simp
  · rw [dropWhile_append_of_all t j ht]
    cases j with
    | nil => simp
    | cons b r' => rw [dropWhile_cons_false r' (hj b r' rfl)]

/-- C10: whenever the header-statement parser succeeds with the Int
variant, the carried value is at most zero — a positive literal is always
captured by the earlier unsigned alternative, which shares the same
terminator. -/
theorem header_statement_int_nonpositive :
    ∀ (i r nm : List Nat) (v : Int),
      header_statement i = .done r (.int nm v) → v ≤ 0 := by
  intro i r nm v h
  unfold header_statement at h
  obtain ⟨r1, nm1, hname, h⟩ := pbind_done_inv h
  obtain ⟨r2, u2, hsep1, h⟩ := pbind_done_inv h
  obtain ⟨r3, u3, htag, h⟩ := pbind_done_inv h
  obtain ⟨r4, u4, hsep2, h⟩ := pbind_done_inv h
  clear hname hsep1 htag hsep2
  unfold headerValue at h
  rcases paltc_done_inv h with h1 | ⟨hc1, h⟩
  · obtain ⟨vv, _, hval⟩ := pmap_done_inv h1
    cases hval
  rcases paltc_done_inv h with h2 | ⟨hc2, h⟩
  case inr.intro.inr.intro =>
    rcases paltc_done_inv h with h3 | ⟨hc3, h⟩
    · obtain ⟨vv, _, hval⟩ := pmap_done_inv h3
      cases hval
    rcases paltc_done_inv h with h4 | ⟨hc4, h⟩
    · obtain ⟨vv, _, hval⟩ := pmap_done_inv h4
      cases hval
    rcases paltc_done_inv h with h5 | ⟨hc5, h⟩
    · obtain ⟨vv, _, hval⟩ := pmap_done_inv h5
      cases hval
    rcases paltc_done_inv h with h6 | ⟨hc6, h⟩
    · obtain ⟨vv, _, hval⟩ := pmap_done_inv h6
      cases hval
    · obtain ⟨vv, _, hval⟩ := pmap_done_inv (pcomplete_done_inv h)
      cases hval
  case inr.intro.inl =>
    obtain ⟨vv, hterm, hval⟩ := pmap_done_inv h2
    injection hval with e1 e2
    rw [← e2]
    unfold terminatedBy at hterm
    obtain ⟨r5, vv2, hint, hsemi⟩ := pbind_done_inv hterm
    obtain ⟨w5, hsepsemi, hvv⟩ := pmap_done_inv hsemi
    have hvv' : vv2 = vv := hvv
    subst hvv'
    by_contra hng
    have hv : 0 < vv2 := by omega
    unfold int_v at hint
    obtain ⟨ds, htw, hfs⟩ := pmapOpt_done_inv hint
    rw [ptakeWhile_eq] at htw
    have htw' : r4.dropWhile intVByte = r5 ∧ r4.takeWhile intVByte = ds := by
      cases htw; exact ⟨rfl, rfl⟩
    obtain ⟨hr5, hds⟩ := htw'
    subst hr5
    subst hds
    have hall : (r4.takeWhile intVByte).all intVByte = true := all_takeWhile _
    obtain ⟨hne, hdig, hlt, _⟩ := fromStrI64_pos hall hfs hv
    have hsplitw := takeWhile_split (q := isDigitB)
      (r4.takeWhile intVByte) (r4.dropWhile intVByte) hdig
      (by
        intro b r' hbr
        have hb := dropWhile_head_false (p := intVByte) r4 hbr
        by_cases hd : isDigitB b = true
        · exfalso
          have : intVByte b = true := by simp [intVByte, hd]
          rw [this] at hb
          cases hb
        · exact Bool.eq_false_iff.mpr hd)
    rw [List.takeWhile_append_dropWhile] at hsplitw
    have huintv : uint_v r4 =
        .done (r4.dropWhile intVByte) (natOfDigits (r4.takeWhile intVByte)) := by
      unfold uint_v
      have htd : ptakeWhile isDigitB r4 =
          .done (r4.dropWhile intVByte) (r4.takeWhile intVByte) := by
        rw [ptakeWhile_eq, hsplitw.1, hsplitw.2]
      exact pmapOpt_of_some htd (fromStrU64_digits hne hdig (by omega))
    have hterm1 : terminatedBy uint_v sepSemi r4 =
        .done r (natOfDigits (r4.takeWhile intVByte)) := by
      unfold terminatedBy
      rw [pbind_of_done huintv, pmap_of_done hsepsemi]
    have hb1 : pmap (terminatedBy uint_v sepSemi) (fun w => HeaderStatement.uint nm1 w) r4 =
        .done r (HeaderStatement.uint nm1 (natOfDigits (r4.takeWhile intVByte))) :=
      pmap_of_done hterm1
    rw [pcomplete_of_done hb1] at hc1
    cases hc1

/-- C10 witness at the concrete statement `A:=-1;`. -/
theorem header_statement_int_nonpositive_witness : (-1 : Int) ≤ 0 :=
  header_statement_int_nonpositive (asciiBytes "A:=-1;") [] (asciiBytes "A") (-1) (by decide)

/-! ## C1: bare digit literals classify as Uint -/

theorem sepSemi_done_head_not_digit {rest r w : List Nat} (h : sepSemi rest = .done r w) :
    ∀ b t, rest = b :: t → isDigitB b = false := by
  intro b t hbt
  subst hbt
  by_cases hd : isDigitB b = true
  · exfalso
    have hb1 : wsb b = false := by
      simp only [isDigitB, Bool.and_eq_true, decide_eq_true_eq] at hd
      simp only [wsb, Bool.or_eq_false_iff, decide_eq_false_iff_not]
      omega
    have hb2 : b ≠ 47 := by
      simp only [isDigitB, Bool.and_eq_true, decide_eq_true_eq] at hd
      omega
    unfold sepSemi at h
    rw [pbind_of_done (separator_cons_other t hb1 hb2)] at h
    have h59 : (59 : Nat) ≠ b := by
      simp only [isDigitB, Bool.and_eq_true, decide_eq_true_eq] at hd
      omega
    rw [ptag_cons_ne [] t h59] at h
    cases h
  · exact Bool.eq_false_iff.mpr hd

/-- C1 counterexample: the bare decimal digit run `99999999999999999999`
exceeds the unsigned (and signed) 64-bit width, both integer alternatives
fail, and the statement is classified as the Float variant — not Uint. -/
theorem header_statement_overflow_digits_float :
    header_statement (asciiBytes "A:=99999999999999999999;") =
      .done [] (.float (asciiBytes "A") (asciiBytes "99999999999999999999")) := by decide

/-- C1 (amended): the header-statement literal alternatives are tried in
the fixed order uint, int, float, date, string, binary, name, each with
the terminating `separator ;` included; for every statement whose literal
is a bare decimal digit run whose value fits the unsigned 64-bit width,
the result is the Uint variant (never Int, Float, or Date) carrying that
value. -/
theorem header_statement_bare_digits_uint (b : Nat) (t ds rest r w : List Nat)
    (hb : nameStartByte b = true) (ht : t.all nameContByte = true)
    (hds : ds ≠ []) (hdig : ds.all isDigitB = true) (hval : natOfDigits ds < 2 ^ 64)
    (hterm : sepSemi rest = .done r w) :
    header_statement ((b :: t) ++ 58 :: 61 :: (ds ++ rest)) =
      .done r (.uint (b :: t) (natOfDigits ds)) := by
  unfold header_statement
  rw [pbind_of_done (name_append b 58 t (61 :: (ds ++ rest)) hb ht (by decide))]
  rw [pbind_of_done (separator_cons_other (61 :: (ds ++ rest)) (by decide) (by decide))]
  have e2 : ptag [58, 61] (58 :: 61 :: (ds ++ rest)) = .done (ds ++ rest) [58, 61] :=
    ptag_self_append [58, 61] (ds ++ rest)
  rw [pbind_of_done e2]
  obtain ⟨d0, ds', rfl⟩ : ∃ d0 ds', ds = d0 :: ds' := by
    cases ds with
    | nil => exact absurd rfl hds
    | cons x xs => exact ⟨x, xs, rfl⟩
  have hd0 : isDigitB d0 = true := by
    simp only [List.all_cons, Bool.and_eq_true] at hdig
    exact hdig.1
  have hd0' : 48 ≤ d0 ∧ d0 ≤ 57 := by
    simp only [isDigitB, Bool.and_eq_true, decide_eq_true_eq] at hd0
    exact hd0
  have hsepds : separator ((d0 :: ds') ++ rest) = .done ((d0 :: ds') ++ rest) () :=
    separator_cons_other (ds' ++ rest)
      (by simp only [wsb, Bool.or_eq_false_iff, decide_eq_false_iff_not]; omega)
      (by omega)
  rw [pbind_of_done hsepds]
  unfold headerValue
  have hnotdig : ∀ bb r', rest = bb :: r' → isDigitB bb = false :=
    sepSemi_done_head_not_digit hterm
  have hsplit := takeWhile_split (q := isDigitB) (d0 :: ds') rest hdig hnotdig
  have htwd : ptakeWhile isDigitB ((d0 :: ds') ++ rest) = .done rest (d0 :: ds') := by
    rw [ptakeWhile_eq, hsplit.1, hsplit.2]
  have huv : uint_v ((d0 :: ds') ++ rest) = .done rest (natOfDigits (d0 :: ds')) := by
    unfold uint_v
    exact pmapOpt_of_some htwd (fromStrU64_digits hds hdig hval)
  have hterm1 : terminatedBy uint_v sepSemi ((d0 :: ds') ++ rest) =
      .done r (natOfDigits (d0 :: ds')) := by
    unfold terminatedBy
    rw [pbind_of_done huv, pmap_of_done hterm]
  exact paltc_of_done (pmap_of_done hterm1)

/-- C1 witness at the concrete statement `Foo:=42;`. -/
theorem header_statement_bare_digits_uint_witness :
    header_statement ((70 :: asciiBytes "oo") ++ 58 :: 61 :: (asciiBytes "42" ++ asciiBytes ";")) =
      .done [] (.uint (70 :: asciiBytes "oo") (natOfDigits (asciiBytes "42"))) :=
  header_statement_bare_digits_uint 70 (asciiBytes "oo") (asciiBytes "42") (asciiBytes ";")
    [] [59] (by decide) (by decide) (by decide) (by decide) (by decide) (by decide)

/-! ## C3: every tag other than int and uint yields the empty Int record -/

theorem ptag_done_head {k : Nat} {kw i r v : List Nat} (h : ptag (k :: kw) i = .done r v) :
    ∃ tl, i = k :: tl := by
  unfold ptag at h
  by_cases hp : (k :: kw).isPrefixOf i = true
  · cases i with
    | nil => simp [List.isPrefixOf] at hp
    | cons x tl =>
      simp only [List.isPrefixOf, Bool.and_eq_true, beq_iff_eq] at hp
      exact ⟨tl, by rw [hp.1]⟩
  · rw [if_neg hp] at h
    split at h <;> cases h

theorem name_done_head {i r v : List Nat} (h : name i = .done r v) :
    ∃ hd tl, i = hd :: tl ∧ nameStartByte hd = true := by
  unfold name at h
  cases i with
  | nil =>
    have h' : (PResult.incomplete : PResult (List Nat)) = .done r v := h
    cases h'
  | cons hd tl =>
    by_cases hs : nameStartByte hd = true
    · exact ⟨hd, tl, rfl, hs⟩
    · have h' : (if nameStartByte hd then
          PResult.done (tl.dropWhile nameContByte) (hd :: tl.takeWhile nameContByte)
          else PResult.error) = .done r v := h
      rw [if_neg hs] at h'
      cases h'

theorem type_done_head {i r : List Nat} {ty : Ty} (h : type_ i = .done r ty) :
    ∃ hd tl, i = hd :: tl ∧ wsb hd = false ∧ hd ≠ 47 := by
  unfold type_ at h
  rcases paltc_done_inv h with h1 | ⟨_, h⟩
  · obtain ⟨v, htag, _⟩ := pmap_done_inv h1
    obtain ⟨tl, rfl⟩ := ptag_done_head htag
    exact ⟨105, tl, rfl, by decide, by decide⟩
  rcases paltc_done_inv h with h1 | ⟨_, h⟩
  · obtain ⟨v, htag, _⟩ := pmap_done_inv h1
    obtain ⟨tl, rfl⟩ := ptag_done_head htag
    exact ⟨117, tl, rfl, by decide, by decide⟩
  rcases paltc_done_inv h with h1 | ⟨_, h⟩
  · obtain ⟨v, htag, _⟩ := pmap_done_inv h1
    obtain ⟨tl, rfl⟩ := ptag_done_head htag
    exact ⟨102, tl, rfl, by decide, by decide⟩
  rcases paltc_done_inv h with h1 | ⟨_, h⟩
  · obtain ⟨v, htag, _⟩ := pmap_done_inv h1
    obtain ⟨tl, rfl⟩ := ptag_done_head htag
    exact ⟨115, tl, rfl, by decide, by decide⟩
  rcases paltc_done_inv h with h1 | ⟨_, h⟩
  · obtain ⟨v, htag, _⟩ := pmap_done_inv h1
    obtain ⟨tl, rfl⟩ := ptag_done_head htag
    exact ⟨100, tl, rfl, by decide, by decide⟩
  rcases paltc_done_inv h with h1 | ⟨_, h⟩
  · obtain ⟨v, htag, _⟩ := pmap_done_inv h1
    obtain ⟨tl, rfl⟩ := ptag_done_head htag
    exact ⟨98, tl, rfl, by decide, by decide⟩
  rcases paltc_done_inv h with h1 | ⟨_, h⟩
  · obtain ⟨v, htag, _⟩ := pmap_done_inv h1
    obtain ⟨tl, rfl⟩ := ptag_done_head htag
    exact ⟨99, tl, rfl, by decide, by decide⟩
  · obtain ⟨v, hn, _⟩ := pmap_done_inv (pcomplete_done_inv h)
    obtain ⟨hd, tl, rfl, hs⟩ := name_done_head hn
    refine ⟨hd, tl, rfl, ?_, ?_⟩
    · simp only [nameStartByte, asciiAlpha, latin1Alpha, Bool.or_eq_true, Bool.and_eq_true,
        decide_eq_true_eq] at hs
      simp only [wsb, Bool.or_eq_false_iff, decide_eq_false_iff_not]
      omega
    · simp only [nameStartByte, asciiAlpha, latin1Alpha, Bool.or_eq_true, Bool.and_eq_true,
        decide_eq_true_eq] at hs
      omega

/-- C3: in `name := tag ...` with any tag other than `int` or `uint`, the
declaration parser consumes nothing beyond the tag — no bracketed property
list — and returns the empty Int-typed record regardless of the declared
tag. -/
theorem dtype_other_tags_empty_int (b : Nat) (t rest2 r : List Nat) (ty : Ty)
    (hb : nameStartByte b = true) (ht : t.all nameContByte = true)
    (hty : type_ rest2 = .done r ty) (h1 : ty ≠ .int) (h2 : ty ≠ .uint) :
    dtype ((b :: t) ++ 58 :: 61 :: rest2) = .done r (NewType.int (b :: t) none none) := by
  obtain ⟨hd, tl, hrest, hw, h47⟩ := type_done_head hty
  subst hrest
  unfold dtype
  rw [pbind_of_done (name_append b 58 t (61 :: hd :: tl) hb ht (by decide))]
  rw [pbind_of_done (separator_cons_other (61 :: hd :: tl) (by decide) (by decide))]
  have e2 : ptag [58, 61] (58 :: 61 :: hd :: tl) = .done (hd :: tl) [58, 61] :=
    ptag_self_append [58, 61] (hd :: tl)
  rw [pbind_of_done e2]
  rw [pbind_of_done (separator_cons_other tl hw h47)]
  rw [pbind_of_done hty]
  cases ty
  case int => exact absurd rfl h1
  case uint => exact absurd rfl h2
  all_goals rfl

/-- C3 witness at the concrete declaration `Foo:=float;`. -/
theorem dtype_other_tags_empty_int_witness :
    dtype ((70 :: asciiBytes "oo") ++ 58 :: 61 :: asciiBytes "float;") =
      .done [59] (NewType.int (70 :: asciiBytes "oo") none none) :=
  dtype_other_tags_empty_int 70 (asciiBytes "oo") (asciiBytes "float;") [59] Ty.float
    (by decide) (by decide) (by decide) (by decide) (by decide)

/-! ## C4: the two-slot property fold -/

theorem foldl_update_uint (nm : List Nat) :
    ∀ (ps : List Property) (d : Option Nat) (r : Option (List UintRangeItem)),
      (∀ p ∈ ps, uintProp p = true) →
      List.foldl NewType.update (NewType.uint nm d r) ps =
        NewType.uint nm (ps.foldl updDU d) (ps.foldl updRU r) := by
  intro ps
  induction ps with
  | nil => intro d r _; rfl
  | cons p ps ih =>
    intro d r hall
    have hp : uintProp p = true := hall p (List.mem_cons_self p ps)
    have hrest : ∀ q ∈ ps, uintProp q = true := fun q hq => hall q (List.mem_cons_of_mem p hq)
    simp only [List.foldl_cons]
    cases p with
    | uintDefault v => exact ih (some v) r hrest
    | uintRange v => exact ih d (some v) hrest
    | intDefault v => simp [uintProp] at hp
    | floatDefault v => simp [uintProp] at hp
    | dateDefault v => simp [uintProp] at hp
    | stringDefault v => simp [uintProp] at hp
    | binaryDefault v => simp [uintProp] at hp
    | intRange v => simp [uintProp] at hp
    | floatRange v => simp [uintProp] at hp
    | dateRange v => simp [uintProp] at hp
    | size v => simp [uintProp] at hp
    | ordered v => simp [uintProp] at hp

theorem foldl_update_int (nm : List Nat) :
    ∀ (ps : List Property) (d : Option Int) (r : Option (List IntRangeItem)),
      (∀ p ∈ ps, intProp p = true) →
      List.foldl NewType.update (NewType.int nm d r) ps =
        NewType.int nm (ps.foldl updDI d) (ps.foldl updRI r) := by
  intro ps
  induction ps with
  | nil => intro d r _; rfl
  | cons p ps ih =>
    intro d r hall
    have hp : intProp p = true := hall p (List.mem_cons_self p ps)
    have hrest : ∀ q ∈ ps, intProp q = true := fun q hq => hall q (List.mem_cons_of_mem p hq)
    simp only [List.foldl_cons]
    cases p with
    | intDefault v => exact ih (some v) r hrest
    | intRange v => exact ih d (some v) hrest
    | uintDefault v => simp [intProp] at hp
    | floatDefault v => simp [intProp] at hp
    | dateDefault v => simp [intProp] at hp
    | stringDefault v => simp [intProp] at hp
    | binaryDefault v => simp [intProp] at hp
    | uintRange v => simp [intProp] at hp
    | floatRange v => simp [intProp] at hp
    | dateRange v => simp [intProp] at hp
    | size v => simp [intProp] at hp
    | ordered v => simp [intProp] at hp

/-- C4: int/uint property lists are folded left to right into the two
independent slots (default, range), a later property of a slot overwriting
the earlier one; `Foo := uint [ range: 1..10; def: 5; ];` yields default 5
and range `[Bounded{1,10}]`, and a repeated property kind keeps only the
last occurrence. -/
theorem dtype_property_fold :
    (∀ (nm : List Nat) (ps : List Property) (d : Option Nat)
        (rg : Option (List UintRangeItem)),
      (∀ p ∈ ps, uintProp p = true) →
      List.foldl NewType.update (NewType.uint nm d rg) ps =
        NewType.uint nm (ps.foldl updDU d) (ps.foldl updRU rg)) ∧
    (∀ (nm : List Nat) (ps : List Property) (d : Option Int)
        (rg : Option (List IntRangeItem)),
      (∀ p ∈ ps, intProp p = true) →
      List.foldl NewType.update (NewType.int nm d rg) ps =
        NewType.int nm (ps.foldl updDI d) (ps.foldl updRI rg)) ∧
    dtype (asciiBytes "Foo := uint [ range: 1..10; def: 5; ];") =
      .done [] (.uint (asciiBytes "Foo") (some 5) (some [.bounded 1 10])) ∧
    dtype (asciiBytes "Foo := uint [ def: 1; def: 5; ];") =
      .done [] (.uint (asciiBytes "Foo") (some 5) none) ∧
    dtype (asciiBytes "Bar := int [ range: ..3; def: -7; ];") =
      .done [] (.int (asciiBytes "Bar") (some (-7)) (some [.toEnd 3])) :=
  ⟨fun nm ps d rg h => foldl_update_uint nm ps d rg h,
   fun nm ps d rg h => foldl_update_int nm ps d rg h, by decide, by decide, by decide⟩

/-- C4 witness: the uint fold at a concrete repeated-slot property list. -/
theorem dtype_property_fold_witness :
    List.foldl NewType.update (NewType.uint (asciiBytes "A") none none)
      [.uintDefault 1, .uintRange [.single 2], .uintDefault 5] =
      NewType.uint (asciiBytes "A") (some 5) (some [.single 2]) :=
  dtype_property_fold.1 (asciiBytes "A")
    [.uintDefault 1, .uintRange [.single 2], .uintDefault 5] none none (by decide)

/-! ## C5: whitespace-tolerant hex decoding loses no information -/

theorem lor_mul16 : ∀ c, c < 16 → ∀ d, d < 16 → c * 16 ||| d = c * 16 + d := by decide

theorem mod256 (buf : Nat) : (buf * 16) % 256 = buf % 16 * 16 := by
  have e : (256 : Nat) = 16 * 16 := rfl
  rw [e, Nat.mul_mod_mul_right]

theorem hexVal_lt {b : Nat} (h : isHexB b = true) : hexVal b < 16 := by
  simp only [isHexB, Bool.or_eq_true, Bool.and_eq_true, decide_eq_true_eq] at h
  unfold hexVal
  split
  · rename_i h1
    simp only [Bool.and_eq_true, decide_eq_true_eq] at h1
    omega
  · split
    · rename_i h1 h2
      simp only [Bool.and_eq_true, decide_eq_true_eq] at h2
      omega
    · rename_i h1 h2
      simp only [Bool.and_eq_true, decide_eq_true_eq] at h1 h2
      omega

theorem fromHexLoop_cons_hex {b : Nat} (s : List Nat) (m buf : Nat) (acc : List Nat)
    (hhex : isHexB b = true) :
    fromHexLoop (b :: s) m buf acc =
      if m + 1 = 2 then
        fromHexLoop s 0 (16 * (buf % 16) + hexVal b) ((16 * (buf % 16) + hexVal b) :: acc)
      else fromHexLoop s (m + 1) (16 * (buf % 16) + hexVal b) acc := by
  have hv16 : hexVal b < 16 := hexVal_lt hhex
  simp only [isHexB, Bool.or_eq_true, Bool.and_eq_true, decide_eq_true_eq] at hhex
  rcases hhex with (h | h) | h
  · have c1 : ¬((65 ≤ b && b ≤ 70) = true) := by
      simp only [Bool.and_eq_true, decide_eq_true_eq]
      omega
    have c2 : ¬((97 ≤ b && b ≤ 102) = true) := by
      simp only [Bool.and_eq_true, decide_eq_true_eq]
      omega
    have c3 : (48 ≤ b && b ≤ 57) = true := by
      simp only [Bool.and_eq_true, decide_eq_true_eq]
      omega
    have hv : hexVal b = b - 48 := by
      unfold hexVal
      rw [if_neg (by simpa using c1), if_neg (by simpa using c2)]
    have harith : (buf * 16) % 256 ||| (b - 48) = 16 * (buf % 16) + hexVal b := by
      rw [hv, mod256, lor_mul16 (buf % 16) (by omega) (b - 48) (by omega)]
      ring
    simp only [fromHexLoop]
    rw [if_neg c1, if_neg c2, if_pos c3, harith]
  · have c1 : (65 ≤ b && b ≤ 70) = true := by
      simp only [Bool.and_eq_true, decide_eq_true_eq]
      omega
    have hv : hexVal b = b - 65 + 10 := by
      unfold hexVal
      rw [if_pos (by simpa using c1)]
      omega
    have harith : (buf * 16) % 256 ||| (b - 65 + 10) = 16 * (buf % 16) + hexVal b := by
      rw [hv, mod256, lor_mul16 (buf % 16) (by omega) (b - 65 + 10) (by omega)]
      ring
    simp only [fromHexLoop]
    rw [if_pos c1, harith]
  · have c1 : ¬((65 ≤ b && b ≤ 70) = true) := by
      simp only [Bool.and_eq_true, decide_eq_true_eq]
      omega
    have c2 : (97 ≤ b && b ≤ 102) = true := by
      simp only [Bool.and_eq_true, decide_eq_true_eq]
      omega
    have hv : hexVal b = b - 97 + 10 := by
      unfold hexVal
      rw [if_neg (by simpa using c1), if_pos (by simpa using c2)]
      omega
    have harith : (buf * 16) % 256 ||| (b - 97 + 10) = 16 * (buf % 16) + hexVal b := by
      rw [hv, mod256, lor_mul16 (buf % 16) (by omega) (b - 97 + 10) (by omega)]
      ring
    simp only [fromHexLoop]
    rw [if_neg c1, if_pos c2, harith]

theorem fromHexLoop_cons_ws {b : Nat} (s : List Nat) (m buf : Nat) (acc : List Nat)
    (hws : wsb b = true) :
    fromHexLoop (b :: s) m buf acc = fromHexLoop s m (buf % 16) acc := by
  simp only [wsb, Bool.or_eq_true, decide_eq_true_eq] at hws
  have c1 : ¬((65 ≤ b && b ≤ 70) = true) := by
    simp only [Bool.and_eq_true, decide_eq_true_eq]
    omega
  have c2 : ¬((97 ≤ b && b ≤ 102) = true) := by
    simp only [Bool.and_eq_true, decide_eq_true_eq]
    omega
  have c3 : ¬((48 ≤ b && b ≤ 57) = true) := by
    simp only [Bool.and_eq_true, decide_eq_true_eq]
    omega
  have c4 : (b = 32 || b = 13 || b = 10 || b = 9) = true := by
    simp only [Bool.or_eq_true, decide_eq_true_eq]
    omega
  have e : (buf * 16) % 256 / 16 = buf % 16 := by
    rw [mod256]
    omega
  simp only [fromHexLoop]
  rw [if_neg c1, if_neg c2, if_neg c3, if_pos c4, e]

theorem fromHexLoop_cons_bad {b : Nat} (s : List Nat) (m buf : Nat) (acc : List Nat)
    (hnh : isHexB b = false) (hnw : wsb b = false) :
    fromHexLoop (b :: s) m buf acc = none := by
  have c1 : ¬((65 ≤ b && b ≤ 70) = true) := by
    intro hc
    have hx : isHexB b = true := by simp [isHexB, hc]
    rw [hx] at hnh
    cases hnh
  have c2 : ¬((97 ≤ b && b ≤ 102) = true) := by
    intro hc
    have hx : isHexB b = true := by simp [isHexB, hc]
    rw [hx] at hnh
    cases hnh
  have c3 : ¬((48 ≤ b && b ≤ 57) = true) := by
    intro hc
    have hx : isHexB b = true := by simp [isHexB, hc]
    rw [hx] at hnh
    cases hnh
  have c4 : ¬((b = 32 || b = 13 || b = 10 || b = 9) = true) := by
    intro hc
    have hx : wsb b = true := by
      simp only [Bool.or_eq_true, decide_eq_true_eq] at hc
      simp only [wsb, Bool.or_eq_true, decide_eq_true_eq]
      tauto
    rw [hx] at hnw
    cases hnw
  simp only [fromHexLoop]
  rw [if_neg c1, if_neg c2, if_neg c3, if_neg c4]

theorem fromHexLoop_char : ∀ (s : List Nat) (m buf : Nat) (acc : List Nat), m = 0 ∨ m = 1 →
    fromHexLoop s m buf acc =
      if s.all hexOrWsB = true then
        (if m = 0 then (pairUp (hexVals s)).map (fun l => acc.reverse ++ l)
         else
           match hexVals s with
           | [] => none
           | v :: vs => (pairUp vs).map (fun l => acc.reverse ++ (16 * (buf % 16) + v) :: l))
      else none := by
  intro s
  induction s with
  | nil =>
    intro m buf acc hm
    rcases hm with rfl | rfl
    · simp [fromHexLoop, hexVals, pairUp]
    · simp [fromHexLoop, hexVals, pairUp]
  | cons b s ih =>
    intro m buf acc hm
    by_cases hhex : isHexB b = true
    · have hvcons : hexVals (b :: s) = hexVal b :: hexVals s := by
        simp [hexVals, hhex]
      have hallc : (b :: s).all hexOrWsB = s.all hexOrWsB := by
        simp [hexOrWsB, hhex]
      rw [fromHexLoop_cons_hex s m buf acc hhex]
      rcases hm with rfl | rfl
      · rw [if_neg (show ¬(0 + 1 = 2) by omega)]
        rw [ih 1 _ acc (.inr rfl)]
        rw [hallc, hvcons]
        have hm16 : (16 * (buf % 16) + hexVal b) % 16 = hexVal b := by
          have := hexVal_lt hhex
          omega
        rw [hm16]
        rw [if_pos (show (0 : Nat) = 0 from rfl)]
        split
        · cases hv : hexVals s with
          | nil => simp [pairUp]
          | cons v vs => simp [pairUp, Option.map_map, Function.comp_def]
        · rfl
      · rw [if_pos (show 1 + 1 = 2 from rfl)]
        rw [ih 0 _ _ (.inl rfl)]
        rw [hallc, hvcons]
        rw [if_neg (show ¬((1 : Nat) = 0) by omega)]
        rw [if_pos (show (0 : Nat) = 0 from rfl)]
        split
        · simp [Option.map_map, Function.comp_def]
        · rfl
    · have hnh : isHexB b = false := Bool.eq_false_iff.mpr hhex
      by_cases hws : wsb b = true
      · rw [fromHexLoop_cons_ws s m buf acc hws]
        rw [ih m (buf % 16) acc hm]
        have hvcons : hexVals (b :: s) = hexVals s := by
          simp [hexVals, hnh]
        have hallc : (b :: s).all hexOrWsB = s.all hexOrWsB := by
          simp [hexOrWsB, hws]
        have e : buf % 16 % 16 = buf % 16 := by omega
        rw [hvcons, hallc, e]
      · have hnw : wsb b = false := Bool.eq_false_iff.mpr hws
        rw [fromHexLoop_cons_bad s m buf acc hnh hnw]
        have hallc : ¬((b :: s).all hexOrWsB = true) := by
          simp [hexOrWsB, hnh, hnw]
        rw [if_neg hallc]

theorem fromHex_char : ∀ s : List Nat,
    fromHex s = if s.all hexOrWsB = true then pairUp (hexVals s) else none := by
  intro s
  unfold fromHex
  rw [fromHexLoop_char s 0 0 [] (.inl rfl)]
  split
  · rw [if_pos rfl]
    cases pairUp (hexVals s) <;> simp
  · rfl

theorem pairUp_encode : ∀ (l bs : List Nat), (∀ x ∈ l, x < 16) →
    pairUp l = some bs → hexEncode bs = l
  | [], bs, _, h => by
    simp only [pairUp, Option.some.injEq] at h
    rw [← h]
    rfl
  | [a], bs, _, h => by
    simp [pairUp] at h
  | a :: b :: r, bs, hlt, h => by
    simp only [pairUp] at h
    cases hp : pairUp r with
    | none =>
      rw [hp] at h
      simp at h
    | some l2 =>
      rw [hp] at h
      simp only [Option.map_some', Option.some.injEq] at h
      have ihr := pairUp_encode r l2 (fun x hx => hlt x (by simp [hx])) hp
      rw [← h]
      have ha : a < 16 := hlt a (by simp)
      have hb : b < 16 := hlt b (by simp)
      have e1 : (16 * a + b) / 16 = a := by omega
      have e2 : (16 * a + b) % 16 = b := by omega
      simp [hexEncode, List.flatMap_cons] at ihr ⊢
      rw [e1, e2, ihr]
      exact ⟨rfl, rfl, rfl⟩

theorem hexVals_lt : ∀ (s : List Nat), ∀ x ∈ hexVals s, x < 16 := by
  intro s x hx
  simp only [hexVals, List.mem_map, List.mem_filter] at hx
  obtain ⟨b, ⟨_, hb⟩, rfl⟩ := hx
  exact hexVal_lt hb

/-- C5: `from_hex` decodes exactly the whitespace-interleaved even hex
digit sequences — it strips whitespace, pairs the nibble values into
bytes, and fails on an odd hex-digit count or any other byte — and the
decode is lossless: re-encoding the decoded bytes as nibble-value pairs
reproduces the hex-digit value sequence of the input with whitespace
removed, exactly. -/
theorem from_hex_lossless :
    (∀ s : List Nat, fromHex s = if s.all hexOrWsB = true then pairUp (hexVals s) else none) ∧
    (∀ (s bs : List Nat), fromHex s = some bs → hexEncode bs = hexVals s) := by
  refine ⟨fromHex_char, fun s bs h => ?_⟩
  rw [fromHex_char s] at h
  split at h
  · exact pairUp_encode (hexVals s) bs (hexVals_lt s) h
  · cases h

/-- C5 witness: decoding `"68 65 6c6c 6f"` and re-encoding reproduces the
whitespace-stripped nibble sequence. -/
theorem from_hex_lossless_witness :
    hexEncode [104, 101, 108, 108, 111] = hexVals (asciiBytes "68 65 6c6c 6f") :=
  from_hex_lossless.2 (asciiBytes "68 65 6c6c 6f") [104, 101, 108, 108, 111] (by decide)
